import Mathlib

/-!
Verification development for the PAZI_nester file-encryption tool
(`src/main.cpp`).

The program derives a 256-bit key from a password with
`PKCS5_PBKDF2_HMAC` (no salt, 10000 iterations, SHA-256), then
encrypts or decrypts the loaded file bytes with `EVP_aes_256_cbc`
(zero IV) through one `Init` / one `Update` / one `Final` call, resizes
the output buffer to `output_len + final_len`, writes it to the output
file and returns `EXIT_SUCCESS` — without checking the return values of
the `EVP_*` cipher calls.

Bytes are modelled as natural numbers below 256, buffers as `List Nat`.
The AES-256 block cipher itself is external to the repository, so the
development is parameterised by an abstract keyed block cipher
(`BlockCipher`) assumed to be a length- and range-preserving permutation
of 16-byte blocks (`GoodCipher`), a property AES-256-CBC's underlying
permutation has.  The one-shot `Update`/`Final` semantics of the OpenSSL
EVP layer with PKCS#7 padding (block-aligned processing in `Update`,
withheld final block on decryption, padding validation in `Final`) is
embedded explicitly.
-/

/-- All entries of the list are bytes (below 256). -/
def Bytes (l : List Nat) : Prop := ∀ x ∈ l, x < 256

instance (l : List Nat) : Decidable (Bytes l) :=
  inferInstanceAs (Decidable (∀ x ∈ l, x < 256))

/-- A well-formed cipher block: exactly 16 bytes. -/
def BlockOK (b : List Nat) : Prop := b.length = 16 ∧ Bytes b

instance (b : List Nat) : Decidable (BlockOK b) :=
  inferInstanceAs (Decidable (_ ∧ _))

/-- Byte-wise XOR of two buffers, as used by CBC chaining. -/
def xorBlock (a b : List Nat) : List Nat := List.zipWith Nat.xor a b

/-- An abstract keyed block cipher: the raw 16-byte-block permutation that
`EVP_aes_256_cbc` applies under the derived key.  AES itself lives in
OpenSSL, outside this repository, so it is kept abstract. -/
structure BlockCipher where
  enc : List Nat → List Nat → List Nat
  dec : List Nat → List Nat → List Nat

/-- The abstract cipher behaves like a real block cipher: on a 16-byte
block of bytes, encryption yields a 16-byte block of bytes and
decryption inverts it (for every key). -/
def GoodCipher (C : BlockCipher) : Prop :=
  ∀ key b, BlockOK b →
    BlockOK (C.enc key b) ∧ C.dec key (C.enc key b) = b

/-- The zero IV of `src/main.cpp` line 81: `unsigned char iv[16] = {0}`. -/
def zeroIV : List Nat := List.replicate 16 0

/-- PKCS#7 padding of the final buffered chunk (length below 16) to a
full 16-byte block, as `EVP_EncryptFinal_ex` applies it. -/
def padBlock (buf : List Nat) : List Nat :=
  buf ++ List.replicate (16 - buf.length) (16 - buf.length)

/-- PKCS#7 padding validation of the final decrypted block, as
`EVP_DecryptFinal_ex` performs it: the last byte `b` must satisfy
`1 ≤ b ≤ 16` and the last `b` bytes must all equal `b`; on success the
block minus the padding is returned. -/
def checkPad (blk : List Nat) : Option (List Nat) :=
  let b := blk.getLast?.getD 0
  if 1 ≤ b ∧ b ≤ 16 ∧ (blk.drop (blk.length - b)).all (fun x => x == b) = true
  then some (blk.take (blk.length - b))
  else none

/-- CBC encryption of `k` full 16-byte blocks taken from the front of
`data`, chaining from ciphertext block `prev`; returns the produced
ciphertext bytes together with the final chaining block. -/
def cbcEncAux (C : BlockCipher) (key : List Nat) :
    Nat → List Nat → List Nat → List Nat × List Nat
  | 0, prev, _ => ([], prev)
  | k + 1, prev, data =>
      let c := C.enc key (xorBlock (data.take 16) prev)
      let r := cbcEncAux C key k c (data.drop 16)
      (c ++ r.1, r.2)

/-- CBC decryption of `k` full 16-byte blocks taken from the front of
`data`, chaining from ciphertext block `prev`. -/
def cbcDecAux (C : BlockCipher) (key : List Nat) :
    Nat → List Nat → List Nat → List Nat
  | 0, _, _ => []
  | k + 1, prev, data =>
      xorBlock (C.dec key (data.take 16)) prev ++
        cbcDecAux C key k (data.take 16) (data.drop 16)

/-- `EVP_EncryptUpdate` on a fresh context (`src/main.cpp` line 105):
encrypts all complete 16-byte blocks of the input and buffers the
remainder; returns the output bytes and the CBC chaining block. -/
def evpEncryptUpdate (C : BlockCipher) (key iv data : List Nat) :
    List Nat × List Nat :=
  cbcEncAux C key (data.length / 16) iv data

/-- `EVP_EncryptFinal_ex` (`src/main.cpp` line 106): pads the buffered
remainder to a full block and encrypts it; always one block of output. -/
def evpEncryptFinal (C : BlockCipher) (key prev buf : List Nat) : List Nat :=
  C.enc key (xorBlock (padBlock buf) prev)

/-- The whole one-shot encryption pipeline of `src/main.cpp` lines
104-106: `Update` output followed by `Final` output. -/
def evpEncrypt (C : BlockCipher) (key iv data : List Nat) : List Nat :=
  let u := evpEncryptUpdate C key iv data
  u.1 ++ evpEncryptFinal C key u.2 (data.drop (16 * (data.length / 16)))

/-- State after `EVP_DecryptUpdate`: output bytes delivered, the
withheld (already decrypted) final block if the input ended on a block
boundary, and the buffered undecrypted remainder otherwise. -/
structure DecUpdateResult where
  out : List Nat
  withheld : Option (List Nat)
  buf : List Nat
deriving DecidableEq

/-- `EVP_DecryptUpdate` on a fresh context (`src/main.cpp` line 109)
with padding enabled: decrypts all complete blocks but withholds the
last decrypted block when the input ends exactly on a block boundary
(it may carry padding); a trailing incomplete chunk stays buffered. -/
def evpDecryptUpdate (C : BlockCipher) (key iv data : List Nat) :
    DecUpdateResult :=
  let q := data.length / 16
  if data.length % 16 = 0 then
    if q = 0 then ⟨[], none, []⟩
    else
      let ps := cbcDecAux C key q iv data
      ⟨ps.take (16 * (q - 1)), some (ps.drop (16 * (q - 1))), []⟩
  else ⟨cbcDecAux C key q iv data, none, data.drop (16 * q)⟩

/-- `EVP_DecryptFinal_ex` (`src/main.cpp` line 110): fails if data did
not end on a block boundary or no final block exists, otherwise
validates and strips the PKCS#7 padding of the withheld block.
`none` models a zero return value with `final_len` left at 0. -/
def evpDecryptFinal (u : DecUpdateResult) : Option (List Nat) :=
  if u.buf = [] then
    match u.withheld with
    | some blk => checkPad blk
    | none => none
  else none

/-- The whole one-shot decryption pipeline, with the EVP error
semantics: the operation succeeds only if `Final` succeeds. -/
def evpDecrypt (C : BlockCipher) (key iv data : List Nat) :
    Option (List Nat) :=
  let u := evpDecryptUpdate C key iv data
  (evpDecryptFinal u).map (fun fb => u.out ++ fb)

/-- Big-endian 4-byte block index, `INT(i)` of the PBKDF2 standard. -/
def int32be (i : Nat) : List Nat :=
  [i / 2 ^ 24 % 256, i / 2 ^ 16 % 256, i / 2 ^ 8 % 256, i % 256]

/-- Modelled from the spec: the inner PBKDF2 chain.  `PKCS5_PBKDF2_HMAC`
lives in OpenSSL, not in this repository; the spec describes it as
iterated HMAC chaining, xor-accumulated.  `pbkdf2Accum prf pw k u acc`
performs `k` more iterations `U_next = prf(pw, U)` starting from `u`,
xor-accumulating into `acc`. -/
def pbkdf2Accum (prf : List Nat → List Nat → List Nat) (pw : List Nat) :
    Nat → List Nat → List Nat → List Nat
  | 0, _, acc => acc
  | k + 1, u, acc =>
      let u2 := prf pw u
      pbkdf2Accum prf pw k u2 (xorBlock acc u2)

/-- Modelled from the spec: PBKDF2 block `T_i`: `U_1 = prf(pw, salt ++ INT(i))`,
then `c - 1` further chained iterations xor-folded together. -/
def pbkdf2Block (prf : List Nat → List Nat → List Nat)
    (pw salt : List Nat) (c i : Nat) : List Nat :=
  let u1 := prf pw (salt ++ int32be i)
  pbkdf2Accum prf pw (c - 1) u1 u1

/-- Modelled from the spec: full PBKDF2 with hash length `hLen`:
concatenate blocks `T_1, T_2, ...` and truncate to `dkLen` bytes. -/
def pbkdf2 (prf : List Nat → List Nat → List Nat) (hLen : Nat)
    (pw salt : List Nat) (c dkLen : Nat) : List Nat :=
  (((List.range ((dkLen + hLen - 1) / hLen)).map
      (fun i => pbkdf2Block prf pw salt c (i + 1))).flatten).take dkLen

/-- The key derivation call of `src/main.cpp` line 92: PBKDF2 with the
HMAC-SHA-256 pseudorandom function `prf` (kept abstract, hash length
32), empty salt (`nullptr, 0`), 10000 iterations, 32-byte output. -/
def deriveKey (prf : List Nat → List Nat → List Nat) (pw : List Nat) :
    List Nat :=
  pbkdf2 prf 32 pw [] 10000 32

/-- The program mode chosen by `-e` / `-d`. -/
inductive CryptMode where
  | encryptMode
  | decryptMode
deriving DecidableEq

/-- Observable outcome of one program run: the bytes written to the
output file (`none` if the run exits before writing) and the process
exit code. -/
structure RunResult where
  written : Option (List Nat)
  exitCode : Nat
deriving DecidableEq

/-- `EXIT_SUCCESS`. -/
def exitSuccess : Nat := 0

/-- `EXIT_FAILURE`. -/
def exitFailure : Nat := 1

/-- The core pipeline of `main` (`src/main.cpp` lines 64-126) after the
input file is loaded: an empty password is rejected by the argument
check (line 64); `kdf` models the `PKCS5_PBKDF2_HMAC` call of line 92,
whose failure (`none`) exits with `EXIT_FAILURE` before any cipher work
(lines 92-95); otherwise the EVP pipeline runs, the buffer is resized to
`output_len + final_len` (line 113) and written (line 123), and the
program returns `EXIT_SUCCESS` (line 126) — the return values of the
`EVP_*` cipher calls are never checked, so a failing
`EVP_DecryptFinal_ex` leaves `final_len = 0` and the run still writes
the `Update` output and reports success. -/
def mainRun (kdf : List Nat → Option (List Nat)) (C : BlockCipher)
    (mode : CryptMode) (password data : List Nat) : RunResult :=
  if password = [] then ⟨none, exitFailure⟩
  else
    match kdf password with
    | none => ⟨none, exitFailure⟩
    | some key =>
      match mode with
      | .encryptMode => ⟨some (evpEncrypt C key zeroIV data), exitSuccess⟩
      | .decryptMode =>
          let u := evpDecryptUpdate C key zeroIV data
          ⟨some (u.out ++ (evpDecryptFinal u).getD []), exitSuccess⟩

/-- The identity block cipher: a trivially good cipher used to
instantiate the abstract AES parameter in concrete witnesses. -/
def idCipher : BlockCipher := ⟨fun _ b => b, fun _ b => b⟩

/-- A keyed byte-shift cipher (shift by the head of the key): a good
cipher whose decryptions under a wrong key are visibly garbled; used to
exhibit concrete wrong-password behaviour. -/
def addCipher : BlockCipher :=
  ⟨fun key b => b.map (fun x => (x + key.headD 0 % 256) % 256),
   fun key b => b.map (fun x => (x + (256 - key.headD 0 % 256)) % 256)⟩

/-- A stand-in pseudorandom function for witnesses. -/
def prfZero : List Nat → List Nat → List Nat := fun _ _ => List.replicate 32 0

/-- The password bytes of `"hunter2"`. -/
def hunter2 : List Nat := [104, 117, 110, 116, 101, 114, 50]

/-- The input bytes of `"hello world"` (11 bytes). -/
def helloWorld : List Nat :=
  [104, 101, 108, 108, 111, 32, 119, 111, 114, 108, 100]

/-! ## Basic lemmas about blocks, XOR and padding -/

theorem byte_xor_lt {x y : Nat} (hx : x < 256) (hy : y < 256) :
    x ^^^ y < 256 := by
  have h : (256 : Nat) = 2 ^ 8 := by norm_num
  rw [h] at hx hy ⊢
  exact Nat.bitwise_lt hx hy

theorem xorBlock_length (a b : List Nat) :
    (xorBlock a b).length = min a.length b.length := by
  simp [xorBlock]

theorem xorBlock_bytes (a : List Nat) :
    ∀ b, Bytes a → Bytes b → Bytes (xorBlock a b) := by
  induction a with
  | nil => intro b _ _ x hx; simp [xorBlock] at hx
  | cons hd tl ih =>
    intro b ha hb x hx
    cases b with
    | nil => simp [xorBlock] at hx
    | cons hd2 tl2 =>
      simp only [xorBlock, List.zipWith_cons_cons, List.mem_cons] at hx
      rcases hx with rfl | hx
      · exact byte_xor_lt (ha hd (by simp)) (hb hd2 (by simp))
      · exact ih tl2 (fun y hy => ha y (by simp [hy]))
          (fun y hy => hb y (by simp [hy])) x hx

theorem xorBlock_cancel (a : List Nat) :
    ∀ b, a.length = b.length → xorBlock (xorBlock a b) b = a := by
  induction a with
  | nil => intro b h; simp [xorBlock]
  | cons hd tl ih =>
    intro b h
    cases b with
    | nil => simp at h
    | cons hd2 tl2 =>
      simp only [xorBlock, List.zipWith_cons_cons, List.cons.injEq]
      exact ⟨Nat.xor_cancel_right _ _, ih tl2 (by simpa using h)⟩

theorem bytes_take {l : List Nat} (h : Bytes l) (n : Nat) : Bytes (l.take n) :=
  fun x hx => h x (List.mem_of_mem_take hx)

theorem bytes_drop {l : List Nat} (h : Bytes l) (n : Nat) : Bytes (l.drop n) :=
  fun x hx => h x (List.mem_of_mem_drop hx)

theorem bytes_append {a b : List Nat} (ha : Bytes a) (hb : Bytes b) :
    Bytes (a ++ b) := by
  intro x hx
  rcases List.mem_append.1 hx with h | h
  · exact ha x h
  · exact hb x h

theorem zeroIV_ok : BlockOK zeroIV := by decide

theorem take_add_split (l : List Nat) (m n : Nat) :
    l.take (m + n) = l.take m ++ (l.drop m).take n := by
  rw [List.take_drop]
  rw [show l.take m = (l.take (m + n)).take m from by
    rw [List.take_take]; congr 1; omega]
  exact (List.take_append_drop m (l.take (m + n))).symm

theorem padBlock_ok {buf : List Nat} (h : buf.length < 16) (hb : Bytes buf) :
    BlockOK (padBlock buf) := by
  constructor
  · simp [padBlock]; omega
  · intro x hx
    rcases List.mem_append.1 hx with hm | hm
    · exact hb x hm
    · have := List.eq_of_mem_replicate hm
      omega

theorem checkPad_padBlock {buf : List Nat} (h : buf.length < 16) :
    checkPad (padBlock buf) = some buf := by
  have hp1 : 1 ≤ 16 - buf.length := by omega
  have hlast : (padBlock buf).getLast? = some (16 - buf.length) := by
    unfold padBlock
    rw [List.getLast?_append]
    rw [List.getLast?_replicate]
    simp only [if_neg (by omega : ¬(16 - buf.length = 0))]
    rfl
  have hlen : (padBlock buf).length = 16 := by simp [padBlock]; omega
  unfold checkPad
  rw [hlast]
  simp only [Option.getD_some]
  rw [if_pos]
  · congr 1
    rw [hlen, show 16 - (16 - buf.length) = buf.length by omega]
    exact List.take_left' rfl
  · refine ⟨hp1, by omega, ?_⟩
    rw [hlen, show 16 - (16 - buf.length) = buf.length by omega]
    unfold padBlock
    rw [List.drop_left' rfl]
    simp [List.all_eq_true, List.eq_of_mem_replicate]

/-! ## Structure of the CBC pipeline -/

theorem cbcEncAux_spec (C : BlockCipher) (key : List Nat)
    (hC : GoodCipher C) :
    ∀ (k : Nat) (prev data : List Nat), BlockOK prev → Bytes data →
      16 * k ≤ data.length →
      (cbcEncAux C key k prev data).1.length = 16 * k ∧
      Bytes (cbcEncAux C key k prev data).1 ∧
      BlockOK (cbcEncAux C key k prev data).2 := by
  intro k
  induction k with
  | zero =>
    intro prev data hp _ _
    refine ⟨by simp [cbcEncAux], ?_, by simpa [cbcEncAux] using hp⟩
    intro x hx
    simp [cbcEncAux] at hx
  | succ n ih =>
    intro prev data hp hd hlen
    have h16 : 16 ≤ data.length := by omega
    have hxok : BlockOK (xorBlock (data.take 16) prev) := by
      refine ⟨?_, xorBlock_bytes _ _ (bytes_take hd 16) hp.2⟩
      rw [xorBlock_length, List.length_take, hp.1]
      omega
    obtain ⟨hcok, _⟩ := hC key _ hxok
    have hlen2 : 16 * n ≤ (data.drop 16).length := by
      rw [List.length_drop]; omega
    obtain ⟨ih1, ih2, ih3⟩ :=
      ih (C.enc key (xorBlock (data.take 16) prev)) (data.drop 16)
        hcok (bytes_drop hd 16) hlen2
    refine ⟨?_, ?_, ?_⟩
    · simp only [cbcEncAux, List.length_append, hcok.1, ih1]
      ring
    · simpa only [cbcEncAux] using bytes_append hcok.2 ih2
    · simpa only [cbcEncAux] using ih3

theorem cbcDec_cbcEnc (C : BlockCipher) (key : List Nat)
    (hC : GoodCipher C) :
    ∀ (k : Nat) (prev data : List Nat) (m : Nat) (cs : List Nat),
      BlockOK prev → Bytes data → 16 * k ≤ data.length →
      cbcDecAux C key (k + m) prev ((cbcEncAux C key k prev data).1 ++ cs) =
        data.take (16 * k) ++
          cbcDecAux C key m (cbcEncAux C key k prev data).2 cs := by
  intro k
  induction k with
  | zero =>
    intro prev data m cs _ _ _
    simp [cbcEncAux]
  | succ n ih =>
    intro prev data m cs hp hd hlen
    have h16 : 16 ≤ data.length := by omega
    have htake16 : (data.take 16).length = 16 := by
      rw [List.length_take]; omega
    have hxok : BlockOK (xorBlock (data.take 16) prev) := by
      refine ⟨?_, xorBlock_bytes _ _ (bytes_take hd 16) hp.2⟩
      rw [xorBlock_length, htake16, hp.1]
      omega
    obtain ⟨hcok, hcdec⟩ := hC key _ hxok
    have hlen2 : 16 * n ≤ (data.drop 16).length := by
      rw [List.length_drop]; omega
    have hkm : n + 1 + m = (n + m) + 1 := by omega
    simp only [cbcEncAux, hkm]
    rw [List.append_assoc]
    simp only [cbcDecAux]
    rw [List.take_left' hcok.1, List.drop_left' hcok.1, hcdec]
    rw [xorBlock_cancel _ _ (by rw [htake16, hp.1])]
    rw [ih (C.enc key (xorBlock (data.take 16) prev)) (data.drop 16) m cs
      hcok (bytes_drop hd 16) hlen2]
    rw [← List.append_assoc]
    congr 1
    rw [show 16 * (n + 1) = 16 + 16 * n by ring, take_add_split]

theorem encBuf_length (data : List Nat) :
    (data.drop (16 * (data.length / 16))).length = data.length % 16 := by
  rw [List.length_drop]
  omega

theorem evpEncrypt_length (C : BlockCipher) (key iv data : List Nat)
    (hC : GoodCipher C) (hiv : BlockOK iv) (hd : Bytes data) :
    (evpEncrypt C key iv data).length = 16 * (data.length / 16) + 16 := by
  have hq : 16 * (data.length / 16) ≤ data.length := by omega
  obtain ⟨h1, _, h2⟩ :=
    cbcEncAux_spec C key hC (data.length / 16) iv data hiv hd hq
  have hbuf : (data.drop (16 * (data.length / 16))).length < 16 := by
    rw [encBuf_length]; omega
  have hpadok : BlockOK (padBlock (data.drop (16 * (data.length / 16)))) :=
    padBlock_ok hbuf (bytes_drop hd _)
  have hxok : BlockOK (xorBlock
      (padBlock (data.drop (16 * (data.length / 16))))
      (cbcEncAux C key (data.length / 16) iv data).2) := by
    refine ⟨?_, xorBlock_bytes _ _ hpadok.2 h2.2⟩
    rw [xorBlock_length, hpadok.1, h2.1]
    simp
  obtain ⟨hfok, _⟩ := hC key _ hxok
  simp only [evpEncrypt, evpEncryptUpdate, evpEncryptFinal,
    List.length_append, h1, hfok.1]

theorem evpDecryptUpdate_aligned (C : BlockCipher) (key iv data : List Nat)
    (q : Nat) (hq : data.length = 16 * (q + 1)) :
    evpDecryptUpdate C key iv data =
      ⟨(cbcDecAux C key (q + 1) iv data).take (16 * q),
        some ((cbcDecAux C key (q + 1) iv data).drop (16 * q)), []⟩ := by
  have h1 : data.length % 16 = 0 := by omega
  have h2 : data.length / 16 = q + 1 := by omega
  simp [evpDecryptUpdate, h1, h2]

theorem evp_roundtrip (C : BlockCipher) (key iv data : List Nat)
    (hC : GoodCipher C) (hiv : BlockOK iv) (hd : Bytes data) :
    evpDecrypt C key iv (evpEncrypt C key iv data) = some data := by
  have hq : 16 * (data.length / 16) ≤ data.length := by omega
  obtain ⟨h1, _, h2⟩ :=
    cbcEncAux_spec C key hC (data.length / 16) iv data hiv hd hq
  have hbuf : (data.drop (16 * (data.length / 16))).length < 16 := by
    rw [encBuf_length]; omega
  have hpadok : BlockOK (padBlock (data.drop (16 * (data.length / 16)))) :=
    padBlock_ok hbuf (bytes_drop hd _)
  have hxok : BlockOK (xorBlock
      (padBlock (data.drop (16 * (data.length / 16))))
      (cbcEncAux C key (data.length / 16) iv data).2) := by
    refine ⟨?_, xorBlock_bytes _ _ hpadok.2 h2.2⟩
    rw [xorBlock_length, hpadok.1, h2.1]
    simp
  obtain ⟨hfok, hfdec⟩ := hC key _ hxok
  have hctlen : (evpEncrypt C key iv data).length =
      16 * (data.length / 16 + 1) := by
    rw [evpEncrypt_length C key iv data hC hiv hd]; ring
  have hred := evpDecryptUpdate_aligned C key iv (evpEncrypt C key iv data)
    (data.length / 16) hctlen
  have hdec : cbcDecAux C key (data.length / 16 + 1) iv
      (evpEncrypt C key iv data) =
      data.take (16 * (data.length / 16)) ++
        padBlock (data.drop (16 * (data.length / 16))) := by
    show cbcDecAux C key (data.length / 16 + 1) iv
      ((cbcEncAux C key (data.length / 16) iv data).1 ++
        evpEncryptFinal C key (cbcEncAux C key (data.length / 16) iv data).2
          (data.drop (16 * (data.length / 16)))) = _
    rw [cbcDec_cbcEnc C key hC (data.length / 16) iv data 1 _ hiv hd hq]
    congr 1
    simp only [cbcDecAux, List.append_nil]
    unfold evpEncryptFinal
    rw [List.take_of_length_le (le_of_eq hfok.1), hfdec]
    exact xorBlock_cancel _ _ (by rw [hpadok.1, h2.1])
  have htklen : (data.take (16 * (data.length / 16))).length =
      16 * (data.length / 16) := by
    rw [List.length_take]; omega
  unfold evpDecrypt
  rw [hred]
  simp only [hdec]
  rw [List.take_left' htklen, List.drop_left' htklen]
  simp [evpDecryptFinal, checkPad_padBlock hbuf]

/-! ## Output-size bounds -/

theorem cbcDecAux_length_le (C : BlockCipher) (key : List Nat) :
    ∀ (k : Nat) (prev data : List Nat), prev.length ≤ 16 →
      (cbcDecAux C key k prev data).length ≤ 16 * k := by
  intro k
  induction k with
  | zero => intro prev data _; simp [cbcDecAux]
  | succ n ih =>
    intro prev data hp
    have h1 : (xorBlock (C.dec key (data.take 16)) prev).length ≤ 16 := by
      rw [xorBlock_length]
      omega
    have h2 := ih (data.take 16) (data.drop 16)
      (by rw [List.length_take]; omega)
    simp only [cbcDecAux, List.length_append]
    omega

theorem checkPad_length_le (blk out : List Nat)
    (h : checkPad blk = some out) : out.length ≤ blk.length := by
  simp only [checkPad] at h
  split at h
  · cases h
    rw [List.length_take]
    omega
  · cases h

theorem decWritten_le (C : BlockCipher) (key iv data : List Nat)
    (hiv : iv.length ≤ 16) :
    ((evpDecryptUpdate C key iv data).out ++
      (evpDecryptFinal (evpDecryptUpdate C key iv data)).getD []).length ≤
      data.length + 16 := by
  by_cases h1 : data.length % 16 = 0
  · by_cases h2 : data.length / 16 = 0
    · simp [evpDecryptUpdate, evpDecryptFinal, h1, h2]
    · have hps := cbcDecAux_length_le C key (data.length / 16) iv data hiv
      simp only [evpDecryptUpdate, h1, if_pos, if_true, reduceIte, h2,
        if_neg, if_false]
      simp only [evpDecryptFinal, if_true]
      rcases hcp : checkPad ((cbcDecAux C key (data.length / 16) iv data).drop
          (16 * (data.length / 16 - 1))) with _ | out
      · simp only [Option.getD_none, List.append_nil, List.length_take]
        omega
      · have := checkPad_length_le _ _ hcp
        rw [List.length_drop] at this
        simp only [Option.getD_some, List.length_append, List.length_take]
        omega
  · have hps := cbcDecAux_length_le C key (data.length / 16) iv data hiv
    have hbufne : data.drop (16 * (data.length / 16)) ≠ [] := by
      intro hnil
      have := congrArg List.length hnil
      rw [List.length_drop] at this
      simp at this
      omega
    simp only [evpDecryptUpdate, h1, if_neg, if_false, reduceIte]
    simp only [evpDecryptFinal]
    rw [if_neg hbufne]
    simp only [Option.getD_none, List.append_nil]
    omega

/-! ## The concrete witness ciphers are good ciphers -/

theorem goodIdCipher : GoodCipher idCipher := by
  intro key b hb
  exact ⟨hb, rfl⟩

theorem goodAddCipher : GoodCipher addCipher := by
  intro key b hb
  refine ⟨⟨by simp [addCipher, hb.1], ?_⟩, ?_⟩
  · intro x hx
    simp only [addCipher, List.mem_map] at hx
    obtain ⟨y, _, rfl⟩ := hx
    exact Nat.mod_lt _ (by omega)
  · simp only [addCipher, List.map_map]
    have hpt : ∀ x ∈ b, ((fun y => (y + (256 - key.headD 0 % 256)) % 256) ∘
        (fun y => (y + key.headD 0 % 256) % 256)) x = id x := by
      intro x hx
      have hxlt : x < 256 := hb.2 x hx
      have hklt : key.headD 0 % 256 < 256 := Nat.mod_lt _ (by omega)
      simp only [Function.comp_apply, id_eq]
      omega
    rw [List.map_congr_left hpt, List.map_id]

/-! ## PBKDF2 length -/

theorem pbkdf2Accum_length (prf : List Nat → List Nat → List Nat)
    (pw : List Nat) (hprf : ∀ a b, (prf a b).length = 32) :
    ∀ (k : Nat) (u acc : List Nat), acc.length = 32 →
      (pbkdf2Accum prf pw k u acc).length = 32 := by
  intro k
  induction k with
  | zero => intro u acc h; simpa [pbkdf2Accum] using h
  | succ n ih =>
    intro u acc h
    simp only [pbkdf2Accum]
    exact ih _ _ (by rw [xorBlock_length, h, hprf]; simp)

theorem deriveKey_len (prf : List Nat → List Nat → List Nat)
    (pw : List Nat) (hprf : ∀ a b, (prf a b).length = 32) :
    (deriveKey prf pw).length = 32 := by
  unfold deriveKey pbkdf2
  have h1 : (32 + 32 - 1) / 32 = 1 := by norm_num
  rw [h1, show List.range 1 = [0] from by decide, List.map_cons, List.map_nil,
    List.flatten_cons, List.flatten_nil, List.append_nil,
    List.length_take]
  have h2 : (pbkdf2Block prf pw [] 10000 1).length = 32 := by
    unfold pbkdf2Block
    exact pbkdf2Accum_length prf pw hprf _ _ _ (hprf _ _)
  rw [h2]
  simp

/-! ## Claims -/

/-- Claim C1: for every non-empty password `P` and every byte buffer
`data`, decrypting the encryption of `data` under `P` with the same
password returns exactly `data` (for any good block cipher and any
pseudorandom function behind the key derivation). -/
theorem roundTrip_encrypt_decrypt (prf : List Nat → List Nat → List Nat)
    (C : BlockCipher) (P data : List Nat)
    (hC : GoodCipher C) (hP : P ≠ []) (hd : Bytes data) :
    evpDecrypt C (deriveKey prf P) zeroIV
      (evpEncrypt C (deriveKey prf P) zeroIV data) = some data :=
  evp_roundtrip C (deriveKey prf P) zeroIV data hC zeroIV_ok hd

/-- Witness for C1 at a concrete password and buffer. -/
theorem roundTrip_encrypt_decrypt_witness :
    GoodCipher idCipher ∧ (([1] : List Nat) ≠ [] ∧ Bytes [1, 2, 3]) ∧
    evpDecrypt idCipher (deriveKey prfZero [1]) zeroIV
      (evpEncrypt idCipher (deriveKey prfZero [1]) zeroIV [1, 2, 3]) =
      some [1, 2, 3] :=
  ⟨goodIdCipher, ⟨by decide, by decide⟩,
    roundTrip_encrypt_decrypt prfZero idCipher [1] [1, 2, 3] goodIdCipher
      (by decide) (by decide)⟩

/-- Claim C4: the ciphertext length is `16 * (len / 16 + 1)` — a
multiple of the block size with exactly one block of padding overhead,
even for block-aligned input. -/
theorem sizeLaw_encrypt (prf : List Nat → List Nat → List Nat)
    (C : BlockCipher) (P data : List Nat)
    (hC : GoodCipher C) (hP : P ≠ []) (hd : Bytes data) :
    (evpEncrypt C (deriveKey prf P) zeroIV data).length =
      16 * (data.length / 16 + 1) := by
  rw [evpEncrypt_length C _ zeroIV data hC zeroIV_ok hd]
  ring

/-- Witness for C4 at a concrete password and buffer. -/
theorem sizeLaw_encrypt_witness :
    GoodCipher idCipher ∧ (([7] : List Nat) ≠ [] ∧ Bytes [1, 2, 3]) ∧
    (evpEncrypt idCipher (deriveKey prfZero [7]) zeroIV [1, 2, 3]).length =
      16 * (([1, 2, 3] : List Nat).length / 16 + 1) :=
  ⟨goodIdCipher, ⟨by decide, by decide⟩,
    sizeLaw_encrypt prfZero idCipher [7] [1, 2, 3] goodIdCipher
      (by decide) (by decide)⟩

/-- Claim C5: encrypting the empty buffer yields exactly one 16-byte
block, and decrypting it with the same password yields the empty
buffer. -/
theorem emptyInput_encrypt_decrypt (prf : List Nat → List Nat → List Nat)
    (C : BlockCipher) (P : List Nat) (hC : GoodCipher C) (hP : P ≠ []) :
    (evpEncrypt C (deriveKey prf P) zeroIV []).length = 16 ∧
    evpDecrypt C (deriveKey prf P) zeroIV
      (evpEncrypt C (deriveKey prf P) zeroIV []) = some [] := by
  constructor
  · have h := evpEncrypt_length C (deriveKey prf P) zeroIV [] hC zeroIV_ok
      (by decide)
    simpa using h
  · exact evp_roundtrip C _ zeroIV [] hC zeroIV_ok (by decide)

/-- Witness for C5 at a concrete password. -/
theorem emptyInput_encrypt_decrypt_witness :
    GoodCipher idCipher ∧ hunter2 ≠ [] ∧
    ((evpEncrypt idCipher (deriveKey prfZero hunter2) zeroIV []).length = 16 ∧
      evpDecrypt idCipher (deriveKey prfZero hunter2) zeroIV
        (evpEncrypt idCipher (deriveKey prfZero hunter2) zeroIV []) =
        some []) :=
  ⟨goodIdCipher, by decide,
    emptyInput_encrypt_decrypt prfZero idCipher hunter2 goodIdCipher
      (by decide)⟩

/-- Claim C8: with password `"hunter2"` and the 11-byte input
`"hello world"`, encryption yields exactly 16 bytes and decrypting them
with the same password yields back `"hello world"`. -/
theorem concreteScenario_hunter2 (prf : List Nat → List Nat → List Nat)
    (C : BlockCipher) (hC : GoodCipher C) :
    (evpEncrypt C (deriveKey prf hunter2) zeroIV helloWorld).length = 16 ∧
    evpDecrypt C (deriveKey prf hunter2) zeroIV
      (evpEncrypt C (deriveKey prf hunter2) zeroIV helloWorld) =
      some helloWorld := by
  constructor
  · rw [evpEncrypt_length C _ zeroIV helloWorld hC zeroIV_ok (by decide)]
    decide
  · exact evp_roundtrip C _ zeroIV helloWorld hC zeroIV_ok (by decide)

/-- Witness for C8 with a concrete good cipher. -/
theorem concreteScenario_hunter2_witness :
    GoodCipher idCipher ∧
    ((evpEncrypt idCipher (deriveKey prfZero hunter2) zeroIV
        helloWorld).length = 16 ∧
      evpDecrypt idCipher (deriveKey prfZero hunter2) zeroIV
        (evpEncrypt idCipher (deriveKey prfZero hunter2) zeroIV helloWorld) =
        some helloWorld) :=
  ⟨goodIdCipher, concreteScenario_hunter2 prfZero idCipher goodIdCipher⟩

/-- Claim C6: the key derivation is a deterministic function of its
parameters — two calls with equal passwords (same fixed salt,
iteration count 10000 and length 32) yield the same 32-byte key. -/
theorem deriveKey_deterministic (prf : List Nat → List Nat → List Nat)
    (hprf : ∀ a b, (prf a b).length = 32) (p1 p2 : List Nat)
    (hp : p1 = p2) :
    deriveKey prf p1 = deriveKey prf p2 ∧ (deriveKey prf p1).length = 32 := by
  subst hp
  exact ⟨rfl, deriveKey_len prf p1 hprf⟩

/-- Witness for C6 at the concrete password `"hunter2"`. -/
theorem deriveKey_deterministic_witness :
    (∀ a b, (prfZero a b).length = 32) ∧ hunter2 = hunter2 ∧
    (deriveKey prfZero hunter2 = deriveKey prfZero hunter2 ∧
      (deriveKey prfZero hunter2).length = 32) :=
  ⟨fun _ _ => by simp [prfZero], rfl,
    deriveKey_deterministic prfZero (fun _ _ => by simp [prfZero])
      hunter2 hunter2 rfl⟩

/-- Claim C7: if the PBKDF2 primitive reports failure, `main` prints an
error and returns `EXIT_FAILURE` before any cipher work: no output file
is written, the result does not depend on the cipher, and the failure is
never silently defaulted. -/
theorem keyDerivationFailure_exits (kdf : List Nat → Option (List Nat))
    (C : BlockCipher) (mode : CryptMode) (P data : List Nat)
    (hk : kdf P = none) :
    mainRun kdf C mode P data = ⟨none, exitFailure⟩ := by
  unfold mainRun
  by_cases hp : P = []
  · simp [hp]
  · simp [hp, hk]

/-- Witness for C7 with a failing key-derivation primitive. -/
theorem keyDerivationFailure_exits_witness :
    ((fun _ => none) : List Nat → Option (List Nat)) hunter2 = none ∧
    mainRun (fun _ => none) idCipher .encryptMode hunter2 helloWorld =
      ⟨none, exitFailure⟩ :=
  ⟨rfl, keyDerivationFailure_exits (fun _ => none) idCipher .encryptMode
    hunter2 helloWorld rfl⟩

/-- Claim C9: in both modes the bytes the program writes never exceed
the input length plus one block (16), so the buffer allocated with
`file_data.size() + block_size` is never overrun and the final resize
never grows past the allocation. -/
theorem outputBuffer_bound (kdf : List Nat → Option (List Nat))
    (C : BlockCipher) (key : List Nat) (mode : CryptMode)
    (P data : List Nat) (hC : GoodCipher C) (hd : Bytes data)
    (hk : kdf P = some key) :
    ((mainRun kdf C mode P data).written.getD []).length ≤
      data.length + 16 := by
  unfold mainRun
  by_cases hp : P = []
  · simp [hp]
  · simp only [if_neg hp, hk]
    cases mode with
    | encryptMode =>
      simp only [Option.getD_some]
      rw [evpEncrypt_length C key zeroIV data hC zeroIV_ok hd]
      omega
    | decryptMode =>
      simp only [Option.getD_some]
      exact decWritten_le C key zeroIV data (by simp [zeroIV])

/-- Witness for C9 at a concrete decryption run. -/
theorem outputBuffer_bound_witness :
    GoodCipher idCipher ∧ Bytes [1, 2, 3] ∧
    ((fun p => some p) : List Nat → Option (List Nat)) [9] = some [9] ∧
    ((mainRun (fun p => some p) idCipher .decryptMode [9]
        [1, 2, 3]).written.getD []).length ≤ ([1, 2, 3] : List Nat).length + 16 :=
  ⟨goodIdCipher, by decide, rfl,
    outputBuffer_bound (fun p => some p) idCipher [9] .decryptMode [9]
      [1, 2, 3] goodIdCipher (by decide) rfl⟩

/-- Claim C10: whenever `EVP_DecryptFinal_ex` fails (invalid final-block
padding, or ciphertext length not a multiple of 16), the program still
writes an output file containing exactly the bytes the `Update` step
produced and exits with `EXIT_SUCCESS`, because the cipher calls' return
values are never checked. -/
theorem decryptFailure_writesPartial (kdf : List Nat → Option (List Nat))
    (C : BlockCipher) (key P data : List Nat)
    (hk : kdf P = some key) (hp : P ≠ [])
    (hfail : evpDecryptFinal (evpDecryptUpdate C key zeroIV data) = none) :
    mainRun kdf C .decryptMode P data =
      ⟨some (evpDecryptUpdate C key zeroIV data).out, exitSuccess⟩ := by
  unfold mainRun
  simp only [if_neg hp, hk, hfail, Option.getD_none, List.append_nil]

/-- Witness for C10: a 32-byte all-zero ciphertext decrypted with the
identity cipher has invalid padding, yet the run writes the 16
`Update` bytes and exits successfully. -/
theorem decryptFailure_writesPartial_witness :
    ((fun _ => some []) : List Nat → Option (List Nat)) [1] = some [] ∧
    ([1] : List Nat) ≠ [] ∧
    evpDecryptFinal (evpDecryptUpdate idCipher [] zeroIV
      (List.replicate 32 0)) = none ∧
    mainRun (fun _ => some []) idCipher .decryptMode [1]
      (List.replicate 32 0) =
      ⟨some (evpDecryptUpdate idCipher [] zeroIV
        (List.replicate 32 0)).out, exitSuccess⟩ :=
  ⟨rfl, by decide, by decide,
    decryptFailure_writesPartial (fun _ => some []) idCipher [] [1]
      (List.replicate 32 0) rfl (by decide) (by decide)⟩

/-- Claim C2 (violated by the code): at the 32-byte all-zero decryption
input, `Final` fails on padding validation, yet the run delivers the 16
garbled bytes produced by `Update` to the output file and reports
success — the transform is not atomic on failure. -/
theorem atomicFailure_violation :
    evpDecryptFinal (evpDecryptUpdate idCipher (List.replicate 32 1) zeroIV
      (List.replicate 32 0)) = none ∧
    mainRun (fun _ => some (List.replicate 32 1)) idCipher .decryptMode [1]
      (List.replicate 32 0) =
      ⟨some (List.replicate 16 0), exitSuccess⟩ := by decide

/-- Claim C3 (violated by the code): encrypt the 16 zero bytes under
password `[0]`, decrypt under the different password `[17]` (the
key-derivation here is the identity, the cipher a keyed byte shift):
`EVP_DecryptFinal_ex` does reject the padding, but the whole operation
does not fail — the run writes 16 garbled bytes and exits with
`EXIT_SUCCESS`, so no `PaddingError` ever reaches the caller. -/
theorem wrongPassword_noFailureSignaled :
    ([0] : List Nat) ≠ [17] ∧
    evpDecryptFinal (evpDecryptUpdate addCipher [17] zeroIV
      (evpEncrypt addCipher [0] zeroIV (List.replicate 16 0))) = none ∧
    mainRun (fun p => some p) addCipher .decryptMode [17]
      (evpEncrypt addCipher [0] zeroIV (List.replicate 16 0)) =
      ⟨some (List.replicate 16 239), exitSuccess⟩ := by decide
